import Mathlib

/-!
Verification of the distractor-generation engine of `QuestionGenerator/qgenv2_alpha.py`.

The Python code works over IEEE floats; the embedding uses exact rationals (`ℚ`),
so that `f"{x:.{d}f}"` formatting is modelled as rounding (half to even, as Python
formatting does) to `d` decimal places, and `float(s)` of a `d`-place numeral is the
exact value of that numeral.  A formatted numeral is modelled by `FStr` (mantissa and
decimal-place count), which is in bijection with the literal character string the
code produces.  Ambient randomness (`random.uniform`, `random.shuffle`) is modelled
by oracle parameters: a stream of draws and a shuffle function; `statistics.pstdev`
(a square root, hence irrational in general) is modelled by a rational parameter
constrained by `isPstdev` where a claim needs it.
-/

namespace QGen

/-- A decimal numeral: value `man / 10 ^ exp`, written with `exp` fractional digits.
Models a CSV cell as originally written; its normalization is the shortest form,
which is what Python's `str(float(...))` round-trip yields. -/
structure Dec where
  man : Int
  exp : Nat
  deriving DecidableEq

/-- Value denoted by a decimal numeral. -/
def Dec.val (x : Dec) : ℚ := (x.man : ℚ) / 10 ^ x.exp

/-- A formatted fixed-point numeral `f"{v:.{dp}f}"`: mantissa (digits with the dot
removed, signed) and number of fractional digits.  Distinct `FStr` values render to
distinct character strings and conversely, so `FStr` equality is exactly
formatted-string equality. -/
structure FStr where
  man : Int
  dp  : Nat
  deriving DecidableEq

/-- The value `float(s)` of a formatted numeral (exact, in the rational model). -/
def FStr.val (s : FStr) : ℚ := (s.man : ℚ) / 10 ^ s.dp

/-- Round half to even, the rounding Python's fixed-point float formatting performs. -/
def rhe (q : ℚ) : ℤ :=
  if q - ⌊q⌋ < 1 / 2 then ⌊q⌋
  else if 1 / 2 < q - ⌊q⌋ then ⌊q⌋ + 1
  else if ⌊q⌋ % 2 = 0 then ⌊q⌋ else ⌊q⌋ + 1

/-- Embed `f"{q:.{d}f}"`: round `q` to `d` decimal places. -/
def fmt (d : ℕ) (q : ℚ) : FStr := ⟨rhe (q * 10 ^ d), d⟩

/-- The `1e-14` epsilon tolerance of the sampler. -/
def epsQ : ℚ := 1 / 10 ^ 14

/-! ## Labels (`get_label_length`, `index_to_label`, `generate_labels`) -/

/-- Loop body of `get_label_length`: `while 26**length < n: length += 1`. -/
def glAux (n : ℕ) (len : ℕ) : ℕ :=
  if h : 26 ^ len < n then glAux n (len + 1) else len
termination_by n - 26 ^ len
decreasing_by
  exact Nat.sub_lt_sub_left h (Nat.pow_lt_pow_succ (by norm_num))

/-- `get_label_length(n)` from the source: starts at `length = 1`. -/
def get_label_length (n : ℕ) : ℕ := glAux n 1

/-- A label is the list of its base-26 digit values (digit `d` renders as
`chr(ord('A') + d)`, i.e. A = 0, ..., Z = 25). -/
abbrev Label := List ℕ

/-- The digit-accumulation loop of `index_to_label`: emits the least-significant
digit first, `length` times. -/
def itlAux : ℕ → ℕ → List ℕ
  | _, 0 => []
  | idx, l + 1 => (idx % 26) :: itlAux (idx / 26) l

/-- `index_to_label(idx, length)` from the source: digits most-significant first
(the Python code reverses the accumulated characters). -/
def index_to_label (idx length : ℕ) : Label := (itlAux idx length).reverse

/-- `generate_labels(n)` from the source. -/
def generate_labels (n : ℕ) : List Label :=
  (List.range n).map (fun i => index_to_label i (get_label_length n))

/-- Base-26 decoding of a label, most-significant digit first.  Modelled from the
spec: the source defines no decoder; the spec asserts decoding a label recovers its
index uniquely. -/
def label_to_index (l : Label) : ℕ := l.foldl (fun a d => a * 26 + d) 0

/-- Minimal `L` with `26 ^ L ≥ n`, as the spec's words define the label length
(spec-side definition, for comparison with `get_label_length`). -/
def specMinLabelLen (n : ℕ) : ℕ :=
  Nat.find (⟨n, le_of_lt (Nat.lt_pow_self (by norm_num) n)⟩ : ∃ L, n ≤ 26 ^ L)

/-! ## Precision analysis (`get_max_decimals_in_original`) -/

/-- Strip trailing zero digits: the effect of `Decimal(str(val)).normalize()` on a
decimal numeral, producing the shortest numeral with the same value. -/
def stripZeros : ℤ → ℕ → ℤ × ℕ
  | m, 0 => (m, 0)
  | m, e + 1 => if m % 10 = 0 then stripZeros (m / 10) e else (m, e + 1)

/-- Normalized (shortest) form of a decimal numeral. -/
def normalizeDec (x : Dec) : Dec := ⟨(stripZeros x.man x.exp).1, (stripZeros x.man x.exp).2⟩

/-- Fractional-digit count the code extracts from one option: the (negated) exponent
of `Decimal(str(val)).normalize()`, clamped at 0. -/
def dpOf (x : Dec) : ℕ := (normalizeDec x).exp

/-- `get_max_decimals_in_original(options)` from the source: maximum fractional-digit
count of the normalized (round-tripped-through-float) options, starting from 0.
The python input is a list of floats; in the rational model a float is the value of
its shortest decimal numeral, which is what `normalizeDec` computes. -/
def get_max_decimals_in_original (options : List Dec) : ℕ :=
  options.foldl (fun acc o => max acc (dpOf o)) 0

/-- The spec-side Precision Analyzer (for claim C7): maximum number of fractional
digits of the options as originally written in the input decimal text. -/
def specMaxDecimalsText (options : List Dec) : ℕ :=
  options.foldl (fun acc o => max acc o.exp) 0

/-! ## The sampler (`generate_uniform_distractors`) -/

/-- An expansion action of the schedule: `"bounds"` or `"decimal"`. -/
inductive Action
  | bounds
  | decimal
  deriving DecidableEq

/-- The literal `expansion_actions` list of the source
(`[None, "bounds", "bounds", "decimal", "bounds", "bounds", "decimal"]`). -/
def expansion_actions : List (Option Action) :=
  [none, some .bounds, some .bounds, some .decimal, some .bounds, some .bounds, some .decimal]

/-- Mutable state the expansion schedule updates: current interval bounds and the
number of decimal increments performed so far. -/
structure PassCfg where
  lb : ℚ
  ub : ℚ
  decInc : ℕ
  deriving DecidableEq

/-- Apply one expansion action, exactly as the loop body does: `"bounds"` doubles the
distance of each bound from the mean; `"decimal"` bumps `decimal_increments`. -/
def applyAction (mean : ℚ) (cfg : PassCfg) : Option Action → PassCfg
  | none => cfg
  | some .bounds =>
      ⟨mean + 2 * (cfg.lb - mean), mean + 2 * (cfg.ub - mean), cfg.decInc⟩
  | some .decimal => ⟨cfg.lb, cfg.ub, cfg.decInc + 1⟩

/-- Initial bounds: `[mean - 3*stdev, mean + 3*stdev]`, no decimal increments. -/
def initCfg (mean stdev : ℚ) : PassCfg := ⟨mean - 3 * stdev, mean + 3 * stdev, 0⟩

/-- Configuration in force during pass `p` (after the actions of indices `0..p`
have been applied to the initial configuration). -/
def cfgAt (mean : ℚ) (init : PassCfg) (p : ℕ) : PassCfg :=
  (expansion_actions.take (p + 1)).foldl (applyAction mean) init

/-- `GenerationError` carrying exactly what the raised message interpolates:
`f"Could not generate {needed} unique distractors after {expansions_done} expansions."`. -/
structure GenError where
  needed : ℕ
  expansions_done : ℕ
  deriving DecidableEq

/-- One drawing pass (the inner `while` loop): draw `stream k`, skip negatives when
disallowed, format at `d` decimals, skip values within `1e-14` of the correct answer,
and add the parsed formatted value to the deduplicating collection.  `fuel` is the
remaining attempt budget; returns the collection and the next stream index. -/
def runPass (d needed : ℕ) (allowNeg : Bool) (correct : ℚ) (stream : ℕ → ℚ) :
    ℕ → ℕ → List ℚ → List ℚ × ℕ
  | 0, k, acc => (acc, k)
  | fuel + 1, k, acc =>
    if needed ≤ acc.length then (acc, k)
    else
      let candidate := stream k
      if allowNeg = false ∧ candidate < 0 then
        runPass d needed allowNeg correct stream fuel (k + 1) acc
      else
        let cval := (fmt d candidate).val
        if |cval - correct| < epsQ then
          runPass d needed allowNeg correct stream fuel (k + 1) acc
        else if cval ∈ acc then
          runPass d needed allowNeg correct stream fuel (k + 1) acc
        else
          runPass d needed allowNeg correct stream fuel (k + 1) (acc ++ [cval])

/-- The `for expansions_done in range(len(expansion_actions))` loop: apply the pass's
action, run one fresh pass from the empty collection, stop on success, raise on the
last index.  Returns the result (collection and its precision, or the error) paired
with the final stream index. -/
def genLoop (base needed maxAtt : ℕ) (allowNeg : Bool) (correct mean : ℚ)
    (stream : ℕ → ℚ) :
    List (Option Action) → PassCfg → ℕ → ℕ → Except GenError (List ℚ × ℕ) × ℕ
  | [], _, i, k => (.error ⟨needed, i⟩, k)
  | a :: rest, cfg, i, k =>
    let cfg' := applyAction mean cfg a
    let cur := base + cfg'.decInc
    let pr := runPass cur needed allowNeg correct stream maxAtt k []
    if needed ≤ pr.1.length then (.ok (pr.1, cur), pr.2)
    else if rest.isEmpty then (.error ⟨needed, i⟩, pr.2)
    else genLoop base needed maxAtt allowNeg correct mean stream rest cfg' (i + 1) pr.2

/-- `statistics.mean` of the options (exact). -/
def listMean (l : List ℚ) : ℚ := l.sum / (l.length : ℚ)

/-- `statistics.pvariance` of the options (exact); `pstdev` is its square root. -/
def pvariance (l : List ℚ) : ℚ :=
  (l.map (fun x => (x - listMean l) ^ 2)).sum / (l.length : ℚ)

/-- `s` is the value of `statistics.pstdev(l)`: nonnegative square root of the
population variance.  Square roots are irrational in general, so the sampler takes
the stdev as a rational parameter constrained by this predicate where needed. -/
def isPstdev (l : List ℚ) (s : ℚ) : Prop := 0 ≤ s ∧ s ^ 2 = pvariance l

/-- `allow_negative = any(opt < 0 for opt in original_options)`. -/
def allow_negative (l : List ℚ) : Bool := l.any fun o => decide (o < 0)

/-- `generate_uniform_distractors` from the source.  `stdev` is the (externally
supplied) value of `statistics.pstdev(original_options)`; `stream` is the oracle of
`random.uniform` draws.  Returns the code's return value — the formatted distractor
list and the final decimal count, or the raised `GenerationError` — paired with the
number of draws consumed. -/
def generate_uniform_distractors (original_options : List ℚ) (stdev correct_answer : ℚ)
    (how_many base_decimals factor : ℕ) (stream : ℕ → ℚ) :
    Except GenError (List FStr × ℕ) × ℕ :=
  let mean := listMean original_options
  let s := if stdev = 0 then 1 else stdev
  match genLoop base_decimals how_many (how_many * factor) (allow_negative original_options)
      correct_answer mean stream expansion_actions (initCfg mean s) 0 0 with
  | (.ok (vals, d), k) => (.ok ((vals.take how_many).map (fmt d), d), k)
  | (.error e, k) => (.error e, k)

/-! ## Question expansion and assembly -/

/-- A parsed question row: text, the four option numerals, and the correct one
(the numeral the `CorrectAnswer` letter selects). -/
structure Question where
  text : String
  options : List Dec
  correct : Dec
  deriving DecidableEq

/-- The `CorrectAnswer` selector letter of a valid row. -/
inductive CorrectLetter
  | A
  | B
  | C
  | D
  deriving DecidableEq

/-- A raw CSV row after cell parsing, before selector resolution. -/
structure RawRow where
  question : String
  optA : Dec
  optB : Dec
  optC : Dec
  optD : Dec
  correct_letter : CorrectLetter
  deriving DecidableEq

/-- Selector resolution of `read_numeric_questions_from_csv` for one valid row. -/
def read_row (r : RawRow) : Question :=
  let co := match r.correct_letter with
    | .A => r.optA
    | .B => r.optB
    | .C => r.optC
    | .D => r.optD
  ⟨r.question, [r.optA, r.optB, r.optC, r.optD], co⟩

/-- `expand_numeric_answers_for_question` from the source.  `shuffle` is the oracle
for `random.shuffle` (theorems constrain it to be a permutation). -/
def expand_numeric_answers_for_question (q : Question) (stdev : ℚ) (N : ℕ)
    (stream : ℕ → ℚ) (shuffle : List FStr → List FStr) : Except GenError (List FStr) :=
  let correct := q.correct.val
  let base := get_max_decimals_in_original q.options
  if N ≤ 1 then .ok [fmt base correct]
  else
    match (generate_uniform_distractors (q.options.map Dec.val) stdev correct
        (N - 1) base 1000 stream).1 with
    | .error e => .error e
    | .ok (ds, d) => .ok (shuffle (fmt d correct :: ds))

/-- The output record of the batch generator. -/
structure ExpandedQuestion where
  question : String
  correct_answer : FStr
  answers : List FStr
  deriving DecidableEq

/-- The per-question assembly step of `generate_expanded_quiz_numeric`: recover
`dec_count` from the first answer (`len(a.split('.')[1])` when it has a dot, else 0)
and re-format the correct answer at that count. -/
def assembleExpanded (q : Question) (final_answers : List FStr) : ExpandedQuestion :=
  let dec_count := match final_answers with
    | [] => 0
    | a :: _ => if 0 < a.dp then a.dp else 0
  ⟨q.text, fmt dec_count q.correct.val, final_answers⟩

/-- Per-question randomness oracle: the pstdev value of its options, the
`random.uniform` draw stream, and the `random.shuffle` permutation. -/
structure QOracle where
  stdev : ℚ
  stream : ℕ → ℚ
  shuffle : List FStr → List FStr

/-- `generate_expanded_quiz_numeric` from the source, over already-parsed rows
(CSV reading is I/O): expand each question in order, aborting on the first
`GenerationError`.  The `ℕ` argument indexes the oracle per question. -/
def generate_expanded_quiz_numeric :
    List Question → ℕ → (ℕ → QOracle) → ℕ → Except GenError (List ExpandedQuestion)
  | [], _, _, _ => .ok []
  | q :: rest, N, orc, i =>
    match expand_numeric_answers_for_question q (orc i).stdev N (orc i).stream
        (orc i).shuffle with
    | .error e => .error e
    | .ok ans =>
      match generate_expanded_quiz_numeric rest N orc (i + 1) with
      | .error e => .error e
      | .ok eqs => .ok (assembleExpanded q ans :: eqs)

/-! ## Serialization (`write_expanded_numeric_questions_to_csv`) -/

/-- One output CSV row: question text, the labelled answer cells, and the
correct-answer cell (`none` models the empty string `""` the code writes when the
correct string is absent from `answers`). -/
structure OutRow where
  question : String
  answer_cells : List (Label × FStr)
  correct_cell : Option Label
  deriving DecidableEq

/-- Row construction of the serializer: fill one column per answer, then look up the
correct answer by exact string match and store its column label, or `""` if absent. -/
def write_row (labels : List Label) (e : ExpandedQuestion) : OutRow :=
  { question := e.question
    answer_cells := labels.zip e.answers
    correct_cell :=
      if e.correct_answer ∈ e.answers then
        some (labels.getD (e.answers.indexOf e.correct_answer) [])
      else none }

/-- `write_expanded_numeric_questions_to_csv` from the source: labels sized by the
longest answer list (`max(..., default=0)`), one `OutRow` per question. -/
def write_expanded_numeric_questions_to_csv (eqs : List ExpandedQuestion) : List OutRow :=
  let maxA := eqs.foldl (fun a e => max a e.answers.length) 0
  let labels := generate_labels maxA
  eqs.map (write_row labels)

/-! ## Concrete inputs used by witnesses and counterexamples -/

/-- The numeral `1`. -/
def dOne : Dec := ⟨1, 0⟩

/-- The numeral `3`. -/
def dThree : Dec := ⟨3, 0⟩

/-- A question whose four options are all `1` (correct answer `1`). -/
def q0 : Question := ⟨"q0", [dOne, dOne, dOne, dOne], dOne⟩

/-- A question with options `[1, 1, 3, 3]` and correct answer `1`
(population variance 1, so pstdev is exactly 1). -/
def q1 : Question := ⟨"q1", [dOne, dOne, dThree, dThree], dOne⟩

/-- Oracle for `q0`: true pstdev 0, draws `5, 6, 7, ...`, identity shuffle. -/
def orc0 : ℕ → QOracle := fun _ => ⟨0, fun k => (k : ℚ) + 5, id⟩

/-- Oracle for `q1`: true pstdev 1, draws `5, 6, 7, ...`, identity shuffle. -/
def orc1 : ℕ → QOracle := fun _ => ⟨1, fun k => (k : ℚ) + 5, id⟩


/-! ## Arithmetic facts about rounding and formatting -/

theorem rhe_intCast (m : ℤ) : rhe (m : ℚ) = m := by
  unfold rhe
  norm_num [Int.floor_intCast]

theorem rhe_nonneg {q : ℚ} (h : 0 ≤ q) : 0 ≤ rhe q := by
  have hf : (0 : ℤ) ≤ ⌊q⌋ := Int.floor_nonneg.mpr h
  unfold rhe
  split_ifs <;> omega

theorem fmt_dp (d : ℕ) (q : ℚ) : (fmt d q).dp = d := rfl

theorem fmt_grid (m : ℤ) (d : ℕ) : fmt d ((m : ℚ) / 10 ^ d) = ⟨m, d⟩ := by
  have h10 : ((10 : ℚ)) ^ d ≠ 0 := pow_ne_zero d (by norm_num)
  simp only [fmt, div_mul_cancel₀ _ h10, rhe_intCast]

theorem val_man_inj {m₁ m₂ : ℤ} {d : ℕ} (h : (FStr.mk m₁ d).val = (FStr.mk m₂ d).val) :
    m₁ = m₂ := by
  have h10 : ((10 : ℚ)) ^ d ≠ 0 := pow_ne_zero d (by norm_num)
  simp only [FStr.val] at h
  field_simp at h
  exact_mod_cast h

theorem fmt_val_inj (d : ℕ) (c₁ c₂ : ℚ) :
    (fmt d c₁).val = (fmt d c₂).val ↔ fmt d c₁ = fmt d c₂ := by
  constructor
  · intro h
    have : rhe (c₁ * 10 ^ d) = rhe (c₂ * 10 ^ d) := val_man_inj h
    simp [fmt, this]
  · intro h
    rw [h]

theorem val_fmt_grid {v : ℚ} {d : ℕ} {m : ℤ} (h : v = (m : ℚ) / 10 ^ d) :
    (fmt d v).val = v := by
  rw [h, fmt_grid]
  rfl

/-! ## Decimal normalization facts -/

theorem stripZeros_val (e : ℕ) (m : ℤ) :
    (((stripZeros m e).1 : ℚ)) / 10 ^ (stripZeros m e).2 = (m : ℚ) / 10 ^ e := by
  induction e generalizing m with
  | zero => simp [stripZeros]
  | succ e ih =>
    by_cases h : m % 10 = 0
    · have hm : (10 : ℤ) ∣ m := Int.dvd_of_emod_eq_zero h
      obtain ⟨c, hc⟩ := hm
      subst hc
      rw [show stripZeros (10 * c) (e + 1) = stripZeros ((10 * c) / 10) e by
        simp [stripZeros, h]]
      rw [Int.mul_ediv_cancel_left _ (by norm_num : (10 : ℤ) ≠ 0), ih c]
      push_cast
      have h10 : ((10 : ℚ)) ^ e ≠ 0 := pow_ne_zero e (by norm_num)
      field_simp
      ring
    · simp [stripZeros, h]

theorem stripZeros_reduced (e : ℕ) (m : ℤ) :
    (stripZeros m e).2 = 0 ∨ ¬ (stripZeros m e).1 % 10 = 0 := by
  induction e generalizing m with
  | zero => simp [stripZeros]
  | succ e ih =>
    by_cases h : m % 10 = 0
    · rw [show stripZeros m (e + 1) = stripZeros (m / 10) e by simp [stripZeros, h]]
      exact ih (m / 10)
    · simp [stripZeros, h]

theorem reduced_eq_aux {m₁ m₂ : ℤ} {e₁ e₂ : ℕ} (hle : e₁ ≤ e₂)
    (r₂ : e₂ = 0 ∨ ¬ m₂ % 10 = 0) (h : m₁ * 10 ^ e₂ = m₂ * 10 ^ e₁) :
    m₁ = m₂ ∧ e₁ = e₂ := by
  obtain ⟨t, ht⟩ := Nat.exists_eq_add_of_le hle
  subst ht
  rw [pow_add] at h
  have h' : m₁ * 10 ^ t * 10 ^ e₁ = m₂ * 10 ^ e₁ := by linear_combination h
  have hc : m₁ * 10 ^ t = m₂ :=
    mul_right_cancel₀ (pow_ne_zero e₁ (by norm_num : (10 : ℤ) ≠ 0)) h'
  cases t with
  | zero => simpa using hc
  | succ t =>
    exfalso
    have hdvd : (10 : ℤ) ∣ m₂ := ⟨m₁ * 10 ^ t, by rw [← hc, pow_succ]; ring⟩
    have hmod : m₂ % 10 = 0 := Int.emod_eq_zero_of_dvd hdvd
    rcases r₂ with h0 | hne
    · omega
    · exact hne hmod

theorem reduced_eq {m₁ m₂ : ℤ} {e₁ e₂ : ℕ}
    (r₁ : e₁ = 0 ∨ ¬ m₁ % 10 = 0) (r₂ : e₂ = 0 ∨ ¬ m₂ % 10 = 0)
    (h : (m₁ : ℚ) / 10 ^ e₁ = (m₂ : ℚ) / 10 ^ e₂) : m₁ = m₂ ∧ e₁ = e₂ := by
  have h10a : ((10 : ℚ)) ^ e₁ ≠ 0 := pow_ne_zero e₁ (by norm_num)
  have h10b : ((10 : ℚ)) ^ e₂ ≠ 0 := pow_ne_zero e₂ (by norm_num)
  have hz : (m₁ : ℚ) * 10 ^ e₂ = (m₂ : ℚ) * 10 ^ e₁ := by
    field_simp at h
    linarith [h]
  have hint : m₁ * 10 ^ e₂ = m₂ * 10 ^ e₁ := by exact_mod_cast hz
  rcases le_total e₁ e₂ with hle | hle
  · exact reduced_eq_aux hle r₂ hint
  · obtain ⟨hm, he⟩ := reduced_eq_aux hle r₁ hint.symm
    exact ⟨hm.symm, he.symm⟩

theorem normalizeDec_val (x : Dec) : (normalizeDec x).val = x.val := by
  simp only [normalizeDec, Dec.val]
  exact stripZeros_val x.exp x.man

theorem normalizeDec_eq_of_val {x y : Dec} (h : x.val = y.val) :
    normalizeDec x = normalizeDec y := by
  have hx := stripZeros_reduced x.exp x.man
  have hy := stripZeros_reduced y.exp y.man
  have hv : (normalizeDec x).val = (normalizeDec y).val := by
    rw [normalizeDec_val, normalizeDec_val, h]
  simp only [normalizeDec, Dec.val] at hv
  obtain ⟨hm, he⟩ := reduced_eq hx hy hv
  simp [normalizeDec, hm, he]

theorem val_grid_dpOf (x : Dec) : x.val = ((normalizeDec x).man : ℚ) / 10 ^ dpOf x := by
  rw [← normalizeDec_val x]
  rfl

theorem val_grid_ge (x : Dec) {d : ℕ} (hd : dpOf x ≤ d) :
    ∃ m : ℤ, x.val = (m : ℚ) / 10 ^ d := by
  refine ⟨(normalizeDec x).man * 10 ^ (d - dpOf x), ?_⟩
  rw [val_grid_dpOf x]
  have hsplit : ((10 : ℚ)) ^ d = 10 ^ dpOf x * 10 ^ (d - dpOf x) := by
    rw [← pow_add]
    congr 1
    omega
  have h1 : ((10 : ℚ)) ^ dpOf x ≠ 0 := pow_ne_zero _ (by norm_num)
  have h2 : ((10 : ℚ)) ^ (d - dpOf x) ≠ 0 := pow_ne_zero _ (by norm_num)
  rw [hsplit]
  push_cast
  field_simp
  ring

theorem le_foldl_max_init (f : Dec → ℕ) (l : List Dec) (i : ℕ) :
    i ≤ l.foldl (fun acc o => max acc (f o)) i := by
  induction l generalizing i with
  | nil => simp
  | cons b l ihb => exact le_trans (le_max_left i (f b)) (ihb (max i (f b)))

theorem dpOf_le_foldl (l : List Dec) (x : Dec) (hx : x ∈ l) (init : ℕ) :
    dpOf x ≤ l.foldl (fun acc o => max acc (dpOf o)) init := by
  induction l generalizing init with
  | nil => cases hx
  | cons a l ih =>
    rcases List.mem_cons.mp hx with rfl | hx
    · exact le_trans (le_max_right init (dpOf x)) (le_foldl_max_init dpOf l _)
    · exact ih hx _

theorem dpOf_le_get_max {l : List Dec} {x : Dec} (hx : x ∈ l) :
    dpOf x ≤ get_max_decimals_in_original l :=
  dpOf_le_foldl l x hx 0

theorem foldl_max_attained (f : Dec → ℕ) (l : List Dec) (init : ℕ) :
    l.foldl (fun acc o => max acc (f o)) init = init ∨
    ∃ x ∈ l, f x = l.foldl (fun acc o => max acc (f o)) init := by
  induction l generalizing init with
  | nil => exact .inl rfl
  | cons a l ih =>
    rcases ih (max init (f a)) with h | h
    · rcases max_choice init (f a) with hm | hm
      · rw [hm] at h
        refine .inl ?_
        rw [List.foldl_cons, hm, h]
      · rw [hm] at h
        refine .inr ⟨a, List.mem_cons_self a l, ?_⟩
        rw [List.foldl_cons, hm, h]
    · obtain ⟨x, hx, hfx⟩ := h
      refine .inr ⟨x, List.mem_cons_of_mem a hx, ?_⟩
      rw [List.foldl_cons]
      exact hfx

theorem get_max_attained (l : List Dec) :
    get_max_decimals_in_original l = 0 ∨
    ∃ x ∈ l, dpOf x = get_max_decimals_in_original l := by
  rcases foldl_max_attained dpOf l 0 with h | h
  · exact .inl h
  · exact .inr h

theorem foldl_max_val_congr {l l' : List Dec}
    (h : List.Forall₂ (fun x y => x.val = y.val) l l') :
    ∀ init, l.foldl (fun acc o => max acc (dpOf o)) init =
      l'.foldl (fun acc o => max acc (dpOf o)) init := by
  induction h with
  | nil => intro init; rfl
  | @cons x y l₁ l₂ hxy htail ih =>
    intro init
    have hdp : dpOf x = dpOf y := by
      unfold dpOf
      rw [normalizeDec_eq_of_val hxy]
    rw [List.foldl_cons, List.foldl_cons, hdp]
    exact ih _

theorem get_max_val_congr {l l' : List Dec}
    (h : List.Forall₂ (fun x y => x.val = y.val) l l') :
    get_max_decimals_in_original l = get_max_decimals_in_original l' :=
  foldl_max_val_congr h 0

/-! ## Sampler pass lemmas -/

theorem val_fmt_isGrid (d : ℕ) (q : ℚ) : ∃ m : ℤ, (fmt d q).val = (m : ℚ) / 10 ^ d :=
  ⟨rhe (q * 10 ^ d), rfl⟩

theorem runPass_unfold (fuel : ℕ) (hf : fuel ≠ 0) {d needed : ℕ} {neg : Bool} {c : ℚ}
    {s : ℕ → ℚ} {k : ℕ} {acc : List ℚ} :
    runPass d needed neg c s fuel k acc =
      if needed ≤ acc.length then (acc, k)
      else if neg = false ∧ s k < 0 then runPass d needed neg c s (fuel - 1) (k + 1) acc
      else if |(fmt d (s k)).val - c| < epsQ then runPass d needed neg c s (fuel - 1) (k + 1) acc
      else if (fmt d (s k)).val ∈ acc then runPass d needed neg c s (fuel - 1) (k + 1) acc
      else runPass d needed neg c s (fuel - 1) (k + 1) (acc ++ [(fmt d (s k)).val]) := by
  cases fuel with
  | zero => exact absurd rfl hf
  | succ f => simp [runPass]

theorem runPass_mem {d needed : ℕ} {neg : Bool} {c : ℚ} {s : ℕ → ℚ}
    (fuel k : ℕ) (acc : List ℚ) {v : ℚ}
    (hv : v ∈ (runPass d needed neg c s fuel k acc).1) :
    v ∈ acc ∨ ((∃ cand, v = (fmt d cand).val ∧ (neg = true ∨ 0 ≤ cand)) ∧ epsQ ≤ |v - c|) := by
  induction fuel generalizing k acc with
  | zero => exact .inl hv
  | succ f ih =>
    simp only [runPass] at hv
    split_ifs at hv with h1 h2 h3 h4
    · exact .inl hv
    · exact ih _ _ hv
    · exact ih _ _ hv
    · exact ih _ _ hv
    · rcases ih _ _ hv with hin | hnew
      · rcases List.mem_append.mp hin with hin | hin
        · exact .inl hin
        · have hveq : v = (fmt d (s k)).val := List.mem_singleton.mp hin
          refine .inr ⟨⟨s k, hveq, ?_⟩, ?_⟩
          · rcases Decidable.em (neg = true) with ht | ht
            · exact .inl ht
            · refine .inr ?_
              have hnegf : neg = false := by
                cases neg
                · rfl
                · exact absurd rfl ht
              by_contra hneg
              exact h2 ⟨hnegf, by linarith [lt_of_not_le hneg]⟩
          · rw [hveq]
            exact le_of_not_lt h3
      · exact .inr hnew

theorem runPass_nodup {d needed : ℕ} {neg : Bool} {c : ℚ} {s : ℕ → ℚ}
    (fuel k : ℕ) (acc : List ℚ) (h : acc.Nodup) :
    (runPass d needed neg c s fuel k acc).1.Nodup := by
  induction fuel generalizing k acc with
  | zero => exact h
  | succ f ih =>
    simp only [runPass]
    split_ifs with h1 h2 h3 h4
    · exact h
    · exact ih _ _ h
    · exact ih _ _ h
    · exact ih _ _ h
    · refine ih _ _ ?_
      simp only [List.nodup_append, List.nodup_singleton, true_and]
      refine ⟨h, ?_⟩
      intro a ha hb
      have hab : a = (fmt d (s k)).val := List.mem_singleton.mp hb
      exact h4 (hab ▸ ha)

theorem runPass_length_le {d needed : ℕ} {neg : Bool} {c : ℚ} {s : ℕ → ℚ}
    (fuel k : ℕ) (acc : List ℚ) (h : acc.length ≤ needed) :
    (runPass d needed neg c s fuel k acc).1.length ≤ needed := by
  induction fuel generalizing k acc with
  | zero => exact h
  | succ f ih =>
    simp only [runPass]
    split_ifs with h1 h2 h3 h4
    · exact h
    · exact ih _ _ h
    · exact ih _ _ h
    · exact ih _ _ h
    · refine ih _ _ ?_
      simp only [List.length_append, List.length_singleton]
      omega

theorem runPass_k_le {d needed : ℕ} {neg : Bool} {c : ℚ} {s : ℕ → ℚ}
    (fuel k : ℕ) (acc : List ℚ) :
    (runPass d needed neg c s fuel k acc).2 ≤ k + fuel := by
  induction fuel generalizing k acc with
  | zero => simp [runPass]
  | succ f ih =>
    simp only [runPass]
    split_ifs with h1 h2 h3 h4
    · omega
    · exact le_trans (ih _ _) (by omega)
    · exact le_trans (ih _ _) (by omega)
    · exact le_trans (ih _ _) (by omega)
    · exact le_trans (ih _ _) (by omega)

/-! ## Expansion-loop lemmas -/

theorem genLoop_ok {base needed maxAtt : ℕ} {neg : Bool} {c mean : ℚ} {s : ℕ → ℚ}
    (acts : List (Option Action)) (cfg : PassCfg) (i k : ℕ) {vals : List ℚ} {dd k' : ℕ}
    (h : genLoop base needed maxAtt neg c mean s acts cfg i k = (.ok (vals, dd), k')) :
    ∃ j, j < acts.length ∧
      dd = base + ((acts.take (j + 1)).foldl (applyAction mean) cfg).decInc ∧
      needed ≤ vals.length ∧
      ∃ k₀, runPass dd needed neg c s maxAtt k₀ [] = (vals, k') := by
  induction acts generalizing cfg i k with
  | nil => simp [genLoop] at h
  | cons a rest ih =>
    simp only [genLoop] at h
    split_ifs at h with h1 h2
    · have hok := congrArg Prod.fst h
      have hk := congrArg Prod.snd h
      simp only at hok hk
      have hinj := Except.ok.inj hok
      have hv : (runPass (base + (applyAction mean cfg a).decInc) needed neg c s maxAtt k []).1
          = vals := congrArg Prod.fst hinj
      have hd : base + (applyAction mean cfg a).decInc = dd := congrArg Prod.snd hinj
      refine ⟨0, by simp, by simpa using hd.symm, ?_, k, ?_⟩
      · rw [← hv]
        exact h1
      · rw [← hd, ← hv, ← hk]
    · simp at h
    · obtain ⟨j, hj, hdd, hlen, k₀, hrp⟩ := ih _ _ _ h
      refine ⟨j + 1, by simpa using Nat.succ_lt_succ hj, ?_, hlen, k₀, hrp⟩
      simpa using hdd

theorem genLoop_err {base needed maxAtt : ℕ} {neg : Bool} {c mean : ℚ} {s : ℕ → ℚ}
    (acts : List (Option Action)) (hne : acts ≠ []) (cfg : PassCfg) (i k : ℕ)
    {e : GenError} {k' : ℕ}
    (h : genLoop base needed maxAtt neg c mean s acts cfg i k = (.error e, k')) :
    e = ⟨needed, i + (acts.length - 1)⟩ := by
  induction acts generalizing cfg i k with
  | nil => exact absurd rfl hne
  | cons a rest ih =>
    simp only [genLoop] at h
    split_ifs at h with h1 h2
    · simp at h
    · have he : GenError.mk needed i = e := Except.error.inj (congrArg Prod.fst h)
      have hr : rest = [] := List.isEmpty_iff.mp h2
      subst hr
      simpa using he.symm
    · have hr : rest ≠ [] := by
        intro hr
        subst hr
        simp at h2
      have hee := ih hr _ _ _ h
      have hlen : 1 ≤ rest.length := List.length_pos.mpr hr
      rw [hee]
      congr 1
      simp only [List.length_cons]
      omega

theorem genLoop_k_le {base needed maxAtt : ℕ} {neg : Bool} {c mean : ℚ} {s : ℕ → ℚ}
    (acts : List (Option Action)) (cfg : PassCfg) (i k : ℕ) :
    (genLoop base needed maxAtt neg c mean s acts cfg i k).2 ≤ k + acts.length * maxAtt := by
  induction acts generalizing cfg i k with
  | nil => simp [genLoop]
  | cons a rest ih =>
    have h₁ := @runPass_k_le (base + (applyAction mean cfg a).decInc) needed neg c s
      maxAtt k []
    simp only [genLoop]
    split_ifs with h1 h2
    · simp only [List.length_cons]
      nlinarith [Nat.zero_le (rest.length * maxAtt)]
    · simp only [List.length_cons]
      nlinarith [Nat.zero_le (rest.length * maxAtt)]
    · have h₂ := ih (applyAction mean cfg a) (i + 1)
        ((runPass (base + (applyAction mean cfg a).decInc) needed neg c s maxAtt k []).2)
      simp only [List.length_cons]
      nlinarith [h₁, h₂]

/-! ## Sampler result characterization -/

theorem epsQ_pos : 0 < epsQ := by norm_num [epsQ]

theorem allow_negative_eq_false {l : List ℚ} (h : ∀ o ∈ l, 0 ≤ o) :
    allow_negative l = false := by
  simp only [allow_negative, List.any_eq_false, decide_eq_true_eq]
  intro o ho
  exact not_lt.mpr (h o ho)

theorem gen_ok_spec {opts : List ℚ} {sdev corr : ℚ} {n base f : ℕ} {stream : ℕ → ℚ}
    {strs : List FStr} {dd k' : ℕ}
    (h : generate_uniform_distractors opts sdev corr n base f stream = (.ok (strs, dd), k')) :
    strs.length = n ∧ strs.Nodup ∧ base ≤ dd ∧
    ∀ x ∈ strs, x.dp = dd ∧ epsQ ≤ |x.val - corr| ∧
      ((∀ o ∈ opts, 0 ≤ o) → 0 ≤ x.val) := by
  unfold generate_uniform_distractors at h
  dsimp only at h
  cases hG : genLoop base n (n * f) (allow_negative opts) corr
      (listMean opts) stream expansion_actions
      (initCfg (listMean opts) (if sdev = 0 then 1 else sdev)) 0 0 with
  | mk res kk =>
    rw [hG] at h
    cases res with
    | error e => simp at h
    | ok p =>
      cases p with
      | mk vals d =>
        simp only at h
        have hstrs : (vals.take n).map (fmt d) = strs :=
          congrArg Prod.fst (Except.ok.inj (congrArg Prod.fst h))
        have hd : d = dd := congrArg Prod.snd (Except.ok.inj (congrArg Prod.fst h))
        have hkk : kk = k' := congrArg Prod.snd h
        subst hd
        subst hkk
        obtain ⟨j, hj, hdd, hlen, k₀, hrp⟩ := genLoop_ok _ _ _ _ hG
        have hle : vals.length ≤ n := by
          have := @runPass_length_le d n (allow_negative opts) corr stream (n * f) k₀ [] (by simp)
          rw [hrp] at this
          exact this
        have hveq : vals.length = n := le_antisymm hle hlen
        have htake : vals.take n = vals := List.take_of_length_le (le_of_eq hveq)
        rw [htake] at hstrs
        have hmem : ∀ v ∈ vals,
            ((∃ cand, v = (fmt d cand).val ∧ (allow_negative opts = true ∨ 0 ≤ cand)) ∧
              epsQ ≤ |v - corr|) := by
          intro v hv
          have hv' : v ∈ (runPass d n (allow_negative opts) corr stream (n * f) k₀ []).1 := by
            rw [hrp]
            exact hv
          rcases runPass_mem _ _ _ hv' with hin | hgood
          · cases hin
          · exact hgood
        have hgrid : ∀ v ∈ vals, (fmt d v).val = v := by
          intro v hv
          obtain ⟨⟨cand, hc, _⟩, _⟩ := hmem v hv
          obtain ⟨m, hm⟩ := val_fmt_isGrid d cand
          exact val_fmt_grid (hc.trans hm)
        refine ⟨?_, ?_, ?_, ?_⟩
        · rw [← hstrs, List.length_map, hveq]
        · rw [← hstrs]
          refine List.Nodup.map_on ?_ ?_
          · intro x hx y hy hxy
            have hx' := hgrid x hx
            have hy' := hgrid y hy
            rw [← hx', ← hy', hxy]
          · have := @runPass_nodup d n (allow_negative opts) corr stream (n * f) k₀ [] List.nodup_nil
            rw [hrp] at this
            exact this
        · rw [hdd]
          exact Nat.le_add_right base _
        · intro x hx
          rw [← hstrs] at hx
          obtain ⟨v, hv, hxv⟩ := List.mem_map.mp hx
          obtain ⟨⟨cand, hc, hneg⟩, heps⟩ := hmem v hv
          refine ⟨by rw [← hxv]; rfl, ?_, ?_⟩
          · rw [← hxv]
            rw [hgrid v hv]
            exact heps
          · intro hpos
            rw [← hxv, hgrid v hv]
            rcases hneg with hT | hc0
            · rw [allow_negative_eq_false hpos] at hT
              cases hT
            · rw [hc]
              have : (0 : ℚ) ≤ cand * 10 ^ d :=
                mul_nonneg hc0 (by positivity)
              have h0 : (0 : ℤ) ≤ rhe (cand * 10 ^ d) := rhe_nonneg this
              simp only [fmt, FStr.val]
              positivity

/-! ## Question-expansion characterization -/

theorem expand_ok_spec {q : Question} {sdev : ℚ} {N : ℕ} {stream : ℕ → ℚ}
    {shuffle : List FStr → List FStr} {ans : List FStr}
    (hsh : ∀ l, (shuffle l).Perm l)
    (hcm : q.correct ∈ q.options)
    (h : expand_numeric_answers_for_question q sdev N stream shuffle = .ok ans) :
    ∃ dd, get_max_decimals_in_original q.options ≤ dd ∧
      (∀ a ∈ ans, a.dp = dd) ∧
      ans.length = max N 1 ∧
      ans.Nodup ∧
      ans.count (fmt dd q.correct.val) = 1 := by
  unfold expand_numeric_answers_for_question at h
  dsimp only at h
  by_cases hN : N ≤ 1
  · rw [if_pos hN] at h
    have hans : ans = [fmt (get_max_decimals_in_original q.options) q.correct.val] :=
      (Except.ok.inj h).symm
    subst hans
    refine ⟨get_max_decimals_in_original q.options, le_rfl, ?_, ?_, ?_, ?_⟩
    · intro a ha
      rw [List.mem_singleton.mp ha]
      rfl
    · simp
      omega
    · exact List.nodup_singleton _
    · simp
  · rw [if_neg hN] at h
    cases hgen : (generate_uniform_distractors (q.options.map Dec.val) sdev q.correct.val
        (N - 1) (get_max_decimals_in_original q.options) 1000 stream).1 with
    | error e =>
      rw [hgen] at h
      simp at h
    | ok p =>
      rw [hgen] at h
      cases p with
      | mk ds d =>
        simp only at h
        have hans : shuffle (fmt d q.correct.val :: ds) = ans := Except.ok.inj h
        have hgen' : generate_uniform_distractors (q.options.map Dec.val) sdev q.correct.val
            (N - 1) (get_max_decimals_in_original q.options) 1000 stream =
            (.ok (ds, d), (generate_uniform_distractors (q.options.map Dec.val) sdev
              q.correct.val (N - 1) (get_max_decimals_in_original q.options) 1000 stream).2) := by
          rw [← hgen]
        obtain ⟨hdslen, hdsnodup, hbase, hdsmem⟩ := gen_ok_spec hgen'
        have hperm : ans.Perm (fmt d q.correct.val :: ds) := hans ▸ hsh _
        have hdpc : dpOf q.correct ≤ d :=
          le_trans (dpOf_le_get_max hcm) hbase
        obtain ⟨m, hm⟩ := val_grid_ge q.correct hdpc
        have hcval : (fmt d q.correct.val).val = q.correct.val := val_fmt_grid hm
        have hnotin : fmt d q.correct.val ∉ ds := by
          intro hin
          obtain ⟨_, heps, _⟩ := hdsmem _ hin
          rw [hcval] at heps
          simp at heps
          have := epsQ_pos
          linarith
        refine ⟨d, hbase, ?_, ?_, ?_, ?_⟩
        · intro a ha
          have : a ∈ fmt d q.correct.val :: ds := hperm.mem_iff.mp ha
          rcases List.mem_cons.mp this with rfl | hin
          · rfl
          · exact (hdsmem a hin).1
        · rw [hperm.length_eq]
          simp only [List.length_cons, hdslen]
          omega
        · refine hperm.nodup_iff.mpr ?_
          exact List.nodup_cons.mpr ⟨hnotin, hdsnodup⟩
        · rw [hperm.count_eq]
          rw [List.count_cons_self, List.count_eq_zero.mpr hnotin]

/-! ## Assembly characterization -/

theorem assemble_spec {q : Question} {ans : List FStr} {dd : ℕ}
    (hne : ans ≠ []) (hdp : ∀ a ∈ ans, a.dp = dd) :
    (assembleExpanded q ans).question = q.text ∧
    (assembleExpanded q ans).correct_answer = fmt dd q.correct.val ∧
    (assembleExpanded q ans).answers = ans := by
  cases ans with
  | nil => exact absurd rfl hne
  | cons a rest =>
    have ha : a.dp = dd := hdp a (List.mem_cons_self a rest)
    refine ⟨rfl, ?_, rfl⟩
    simp only [assembleExpanded]
    by_cases h0 : 0 < a.dp
    · rw [if_pos h0, ha]
    · rw [if_neg h0]
      have : a.dp = 0 := by omega
      rw [← ha, this]

/-! ## Batch-generation characterization -/

theorem genQuiz_spec {rows : List Question} {N i0 : ℕ} {orc : ℕ → QOracle}
    {eqs : List ExpandedQuestion}
    (hsh : ∀ i l, ((orc i).shuffle l).Perm l)
    (hcm : ∀ q ∈ rows, q.correct ∈ q.options)
    (h : generate_expanded_quiz_numeric rows N orc i0 = .ok eqs) :
    List.Forall₂ (fun q e =>
      e.question = q.text ∧
      e.answers.length = max N 1 ∧
      e.answers.Nodup ∧
      e.answers.count e.correct_answer = 1 ∧
      (∀ a ∈ e.answers, a.dp = e.correct_answer.dp) ∧
      e.correct_answer = fmt e.correct_answer.dp q.correct.val) rows eqs := by
  induction rows generalizing i0 eqs with
  | nil =>
    simp only [generate_expanded_quiz_numeric] at h
    have : eqs = [] := (Except.ok.inj h).symm
    subst this
    exact List.Forall₂.nil
  | cons qq rest ih =>
    simp only [generate_expanded_quiz_numeric] at h
    cases hE : expand_numeric_answers_for_question qq (orc i0).stdev N (orc i0).stream
        (orc i0).shuffle with
    | error e =>
      rw [hE] at h
      simp at h
    | ok ans =>
      rw [hE] at h
      simp only at h
      cases hR : generate_expanded_quiz_numeric rest N orc (i0 + 1) with
      | error e =>
        rw [hR] at h
        simp at h
      | ok eqs' =>
        rw [hR] at h
        simp only at h
        have heqs : assembleExpanded qq ans :: eqs' = eqs := Except.ok.inj h
        subst heqs
        obtain ⟨dd, hbase, hdp, hlen, hnodup, hcount⟩ :=
          expand_ok_spec (hsh i0) (hcm qq (List.mem_cons_self qq rest)) hE
        have hne : ans ≠ [] := by
          intro hnil
          rw [hnil] at hlen
          simp at hlen
          omega
        obtain ⟨hq, hca, hans⟩ := @assemble_spec qq ans dd hne hdp
        refine List.Forall₂.cons ⟨hq, ?_, ?_, ?_, ?_, ?_⟩
          (ih (fun qx hqx => hcm qx (List.mem_cons_of_mem qq hqx)) hR)
        · rw [hans]
          exact hlen
        · rw [hans]
          exact hnodup
        · rw [hans, hca]
          exact hcount
        · rw [hans, hca]
          intro a ha
          rw [fmt_dp]
          exact hdp a ha
        · rw [hca, fmt_dp]

/-! ## Label-scheme lemmas -/

theorem glAux_spec (n len : ℕ) :
    len ≤ glAux n len ∧ n ≤ 26 ^ glAux n len ∧
    ∀ L, len ≤ L → n ≤ 26 ^ L → glAux n len ≤ L := by
  induction len using glAux.induct n with
  | case1 len h ih =>
    obtain ⟨h1, h2, h3⟩ := ih
    rw [glAux.eq_def, dif_pos h]
    refine ⟨by omega, h2, ?_⟩
    intro L hL hpow
    have hne : L ≠ len := by
      intro heq
      subst heq
      omega
    exact h3 L (by omega) hpow
  | case2 len h =>
    rw [glAux.eq_def, dif_neg h]
    exact ⟨le_rfl, by omega, fun L hL _ => hL⟩

theorem get_label_length_spec (n : ℕ) :
    1 ≤ get_label_length n ∧ n ≤ 26 ^ get_label_length n ∧
    ∀ L, 1 ≤ L → n ≤ 26 ^ L → get_label_length n ≤ L :=
  glAux_spec n 1

theorem get_label_length_min {n : ℕ} (hn : 2 ≤ n) :
    ∀ L, n ≤ 26 ^ L → get_label_length n ≤ L := by
  intro L hpow
  rcases Nat.eq_zero_or_pos L with rfl | hL
  · simp at hpow
    omega
  · exact (get_label_length_spec n).2.2 L hL hpow

theorem specMinLabelLen_spec (n : ℕ) : n ≤ 26 ^ specMinLabelLen n := by
  unfold specMinLabelLen
  exact Nat.find_spec (⟨n, le_of_lt (Nat.lt_pow_self (by norm_num) n)⟩ : ∃ L, n ≤ 26 ^ L)

theorem specMinLabelLen_le {n L : ℕ} (h : n ≤ 26 ^ L) : specMinLabelLen n ≤ L := by
  unfold specMinLabelLen
  exact Nat.find_le h

theorem get_label_length_eq_specMin {n : ℕ} (hn : 2 ≤ n) :
    get_label_length n = specMinLabelLen n := by
  apply le_antisymm
  · exact get_label_length_min hn _ (specMinLabelLen_spec n)
  · exact specMinLabelLen_le (get_label_length_spec n).2.1

theorem itlAux_length (idx L : ℕ) : (itlAux idx L).length = L := by
  induction L generalizing idx with
  | zero => rfl
  | succ L ih => simp [itlAux, ih]

theorem itlAux_digits_lt (idx L : ℕ) : ∀ dgt ∈ itlAux idx L, dgt < 26 := by
  induction L generalizing idx with
  | zero => simp [itlAux]
  | succ L ih =>
    intro dgt hd
    rcases List.mem_cons.mp hd with rfl | hd
    · exact Nat.mod_lt _ (by norm_num)
    · exact ih _ _ hd

theorem index_to_label_length (idx L : ℕ) : (index_to_label idx L).length = L := by
  simp [index_to_label, itlAux_length]

theorem index_to_label_digits_lt (idx L : ℕ) : ∀ dgt ∈ index_to_label idx L, dgt < 26 := by
  intro dgt hd
  exact itlAux_digits_lt idx L dgt (List.mem_reverse.mp hd)

theorem label_roundtrip {L idx : ℕ} (h : idx < 26 ^ L) :
    label_to_index (index_to_label idx L) = idx := by
  induction L generalizing idx with
  | zero =>
    have : idx = 0 := by
      simpa using h
    subst this
    rfl
  | succ L ih =>
    have hdiv : idx / 26 < 26 ^ L := by
      rw [Nat.div_lt_iff_lt_mul (by norm_num : 0 < 26)]
      calc idx < 26 ^ (L + 1) := h
        _ = 26 ^ L * 26 := by rw [pow_succ]
    have hrec := ih hdiv
    simp only [index_to_label, itlAux, List.reverse_cons] at *
    simp only [label_to_index, List.foldl_append, List.foldl_cons, List.foldl_nil] at *
    rw [hrec]
    omega

theorem index_to_label_inj {n idx₁ idx₂ : ℕ} (h₁ : idx₁ < 26 ^ n) (h₂ : idx₂ < 26 ^ n)
    (h : index_to_label idx₁ n = index_to_label idx₂ n) : idx₁ = idx₂ := by
  have := congrArg label_to_index h
  rwa [label_roundtrip h₁, label_roundtrip h₂] at this

/-! ## Evaluation helpers for concrete runs -/

theorem rhe_lit1 : rhe (1 : ℚ) = 1 := by
  rw [show (1 : ℚ) = ((1 : ℤ) : ℚ) by norm_num, rhe_intCast]

theorem rhe_lit5 : rhe (5 : ℚ) = 5 := by
  rw [show (5 : ℚ) = ((5 : ℤ) : ℚ) by norm_num, rhe_intCast]

theorem rhe_lit6 : rhe (6 : ℚ) = 6 := by
  rw [show (6 : ℚ) = ((6 : ℤ) : ℚ) by norm_num, rhe_intCast]

theorem rhe_lit7 : rhe (7 : ℚ) = 7 := by
  rw [show (7 : ℚ) = ((7 : ℤ) : ℚ) by norm_num, rhe_intCast]

theorem rhe_lit50 : rhe (50 : ℚ) = 50 := by
  rw [show (50 : ℚ) = ((50 : ℤ) : ℚ) by norm_num, rhe_intCast]

theorem rhe_lit70 : rhe (70 : ℚ) = 70 := by
  rw [show (70 : ℚ) = ((70 : ℤ) : ℚ) by norm_num, rhe_intCast]

theorem rhe_lit500 : rhe (500 : ℚ) = 500 := by
  rw [show (500 : ℚ) = ((500 : ℤ) : ℚ) by norm_num, rhe_intCast]

theorem rhe_lit700 : rhe (700 : ℚ) = 700 := by
  rw [show (700 : ℚ) = ((700 : ℤ) : ℚ) by norm_num, rhe_intCast]

theorem pvariance_q1 : pvariance [1, 1, 3, 3] = 1 := by
  norm_num [pvariance, listMean]

theorem isPstdev_q1 : isPstdev [1, 1, 3, 3] 1 := by
  refine ⟨by norm_num, ?_⟩
  rw [pvariance_q1]
  norm_num

theorem runPass_unfold1 (f : ℕ) {d needed : ℕ} {neg : Bool} {c : ℚ}
    {s : ℕ → ℚ} {k : ℕ} {acc : List ℚ} :
    runPass d needed neg c s (f + 1) k acc =
      if needed ≤ acc.length then (acc, k)
      else if neg = false ∧ s k < 0 then runPass d needed neg c s f (k + 1) acc
      else if |(fmt d (s k)).val - c| < epsQ then runPass d needed neg c s f (k + 1) acc
      else if (fmt d (s k)).val ∈ acc then runPass d needed neg c s f (k + 1) acc
      else runPass d needed neg c s f (k + 1) (acc ++ [(fmt d (s k)).val]) := by
  simp [runPass]

theorem nabs4 : ¬ (|(4 : ℚ)| < epsQ) := by norm_num [epsQ]

theorem nabs5 : ¬ (|(5 : ℚ)| < epsQ) := by norm_num [epsQ]

theorem runPass_q1_gen (f : ℕ) :
    runPass 0 2 false 1 (fun k => ((k : ℚ) + 5)) (f + 2) 0 [] = ([5, 6], 2) := by
  rw [runPass_unfold1 (f + 1)]
  norm_num only [fmt, FStr.val, rhe_lit5, nabs4, ite_true, ite_false, if_true, if_false,
    and_false, false_and, and_true, true_and, or_false, false_or, true_or, or_true,
    not_false_iff, List.length_nil, List.length_cons, List.nil_append, List.cons_append,
    List.not_mem_nil, List.mem_cons, List.mem_singleton]
  rw [runPass_unfold1 f]
  norm_num only [fmt, FStr.val, rhe_lit6, nabs5, ite_true, ite_false, if_true, if_false,
    and_false, false_and, and_true, true_and, or_false, false_or, true_or, or_true,
    not_false_iff, List.length_nil, List.length_cons, List.nil_append, List.cons_append,
    List.not_mem_nil, List.mem_cons, List.mem_singleton]
  cases f with
  | zero => simp [runPass]
  | succ f =>
    rw [runPass_unfold1 f]
    norm_num only [List.length_cons, List.length_nil, ite_true, ite_false, if_true, if_false]

theorem runPass_q1 : runPass 0 2 false 1 (fun k => ((k : ℚ) + 5)) 2000 0 [] = ([5, 6], 2) := by
  rw [show (2000 : ℕ) = 1998 + 2 from rfl]
  exact runPass_q1_gen 1998
theorem allow_negative_q1 : allow_negative ([1, 1, 3, 3] : List ℚ) = false := by
  norm_num [allow_negative]

theorem base_q1 : get_max_decimals_in_original
    [⟨1, 0⟩, ⟨1, 0⟩, ⟨3, 0⟩, ⟨3, 0⟩] = 0 := rfl

theorem run_q1_ok : generate_expanded_quiz_numeric [q1] 3 orc1 0 =
    .ok [⟨"q1", ⟨1, 0⟩, [⟨1, 0⟩, ⟨5, 0⟩, ⟨6, 0⟩]⟩] := by
  norm_num only [generate_expanded_quiz_numeric, expand_numeric_answers_for_question, q1, orc1,
    base_q1, allow_negative_q1, generate_uniform_distractors, genLoop, expansion_actions,
    applyAction, initCfg, runPass_q1, assembleExpanded, fmt, FStr.val, rhe_lit1, rhe_lit5,
    rhe_lit6, Dec.val, dOne, dThree, ite_true, ite_false, if_true, if_false, and_false,
    false_and, and_true, true_and, or_false, false_or, true_or, or_true, not_false_iff,
    List.length_nil, List.length_cons, List.nil_append, List.cons_append, List.not_mem_nil,
    List.mem_cons, List.mem_singleton, List.map_cons, List.map_nil, List.take_succ_cons,
    List.take_zero, List.isEmpty_cons, List.isEmpty_nil, id_eq, Nat.sub_self,
    Nat.add_zero, Nat.zero_add, add_zero, zero_add, Bool.false_eq_true]
theorem base_q0 : get_max_decimals_in_original
    [⟨1, 0⟩, ⟨1, 0⟩, ⟨1, 0⟩, ⟨1, 0⟩] = 0 := rfl

theorem run_q0_N0 : generate_expanded_quiz_numeric [q0] 0 orc0 0 =
    .ok [⟨"q0", ⟨1, 0⟩, [⟨1, 0⟩]⟩] := by
  norm_num only [generate_expanded_quiz_numeric, expand_numeric_answers_for_question, q0, orc0,
    assembleExpanded, fmt, FStr.val, rhe_lit1, Dec.val, dOne, base_q0,
    ite_true, ite_false, if_true, if_false,
    Nat.le_refl, Nat.zero_le, le_refl, Nat.add_zero, Nat.zero_add, id_eq, pow_zero,
    lt_self_iff_false]

theorem runA_err : (generate_uniform_distractors [1, 1, 3, 3] 1 1 2 0 1 (fun _ => (5 : ℚ))).1 =
    .error ⟨2, 6⟩ := by
  norm_num [generate_uniform_distractors, genLoop, runPass, listMean, allow_negative, initCfg,
    applyAction, expansion_actions, epsQ, fmt, FStr.val, rhe_lit5, rhe_lit50, rhe_lit500]

theorem runB_err : (generate_uniform_distractors [7, 7, 7, 7] 0 7 2 0 1 (fun _ => (7 : ℚ))).1 =
    .error ⟨2, 6⟩ := by
  norm_num [generate_uniform_distractors, genLoop, runPass, listMean, allow_negative, initCfg,
    applyAction, expansion_actions, epsQ, fmt, FStr.val, rhe_lit7, rhe_lit70, rhe_lit700]

theorem runC_ok : generate_uniform_distractors [1, 1, 3, 3] 1 1 1 0 1 (fun _ => (5 : ℚ)) =
    (.ok ([⟨5, 0⟩], 0), 1) := by
  norm_num [generate_uniform_distractors, genLoop, runPass, listMean, allow_negative, initCfg,
    applyAction, expansion_actions, epsQ, fmt, FStr.val, rhe_lit5]

/-! ## Further characterizations used by the claims -/

theorem forall₂_mem_right {α β : Type} {R : α → β → Prop} {l₁ : List α} {l₂ : List β}
    (h : List.Forall₂ R l₁ l₂) {b : β} (hb : b ∈ l₂) : ∃ a, a ∈ l₁ ∧ R a b := by
  induction h with
  | nil => cases hb
  | cons hR _ ih =>
    rcases List.mem_cons.mp hb with rfl | hb
    · exact ⟨_, List.mem_cons_self _ _, hR⟩
    · obtain ⟨a, ha, hr⟩ := ih hb
      exact ⟨a, List.mem_cons_of_mem _ ha, hr⟩

theorem gen_err_spec {opts : List ℚ} {sdev corr : ℚ} {n base f : ℕ} {stream : ℕ → ℚ}
    {e : GenError} {k' : ℕ}
    (h : generate_uniform_distractors opts sdev corr n base f stream = (.error e, k')) :
    e = ⟨n, 6⟩ := by
  unfold generate_uniform_distractors at h
  dsimp only at h
  cases hG : genLoop base n (n * f) (allow_negative opts) corr
      (listMean opts) stream expansion_actions
      (initCfg (listMean opts) (if sdev = 0 then 1 else sdev)) 0 0 with
  | mk res kk =>
    rw [hG] at h
    cases res with
    | ok p => simp at h
    | error e' =>
      simp only at h
      have he : e' = e := Except.error.inj (congrArg Prod.fst h)
      subst he
      have := genLoop_err expansion_actions (by simp [expansion_actions]) _ _ _ hG
      simpa [expansion_actions] using this

theorem expand_err_spec {q : Question} {sdev : ℚ} {N : ℕ} {stream : ℕ → ℚ}
    {shuffle : List FStr → List FStr} {e : GenError}
    (h : expand_numeric_answers_for_question q sdev N stream shuffle = .error e) :
    e = ⟨N - 1, 6⟩ := by
  unfold expand_numeric_answers_for_question at h
  dsimp only at h
  by_cases hN : N ≤ 1
  · rw [if_pos hN] at h
    simp at h
  · rw [if_neg hN] at h
    cases hgen : (generate_uniform_distractors (q.options.map Dec.val) sdev q.correct.val
        (N - 1) (get_max_decimals_in_original q.options) 1000 stream).1 with
    | error e' =>
      rw [hgen] at h
      simp only at h
      have he : e' = e := Except.error.inj h
      subst he
      have hpair : generate_uniform_distractors (q.options.map Dec.val) sdev q.correct.val
          (N - 1) (get_max_decimals_in_original q.options) 1000 stream =
          (.error e', (generate_uniform_distractors (q.options.map Dec.val) sdev q.correct.val
            (N - 1) (get_max_decimals_in_original q.options) 1000 stream).2) := by
        rw [← hgen]
      exact gen_err_spec hpair
    | ok p =>
      rw [hgen] at h
      cases p with
      | mk ds d => simp at h

theorem gen_draws_le {opts : List ℚ} {sdev corr : ℚ} {n base f : ℕ} {stream : ℕ → ℚ} :
    (generate_uniform_distractors opts sdev corr n base f stream).2 ≤ 7 * (n * f) := by
  unfold generate_uniform_distractors
  dsimp only
  cases hG : genLoop base n (n * f) (allow_negative opts) corr
      (listMean opts) stream expansion_actions
      (initCfg (listMean opts) (if sdev = 0 then 1 else sdev)) 0 0 with
  | mk res kk =>
    have hk := @genLoop_k_le base n (n * f) (allow_negative opts) corr (listMean opts) stream
      expansion_actions (initCfg (listMean opts) (if sdev = 0 then 1 else sdev)) 0 0
    rw [hG] at hk
    cases res with
    | ok p =>
      cases p with
      | mk vals d =>
        simpa [expansion_actions] using hk
    | error e =>
      simpa [expansion_actions] using hk

theorem gen_ok_struct {opts : List ℚ} {sdev corr : ℚ} {n base f : ℕ} {stream : ℕ → ℚ}
    {strs : List FStr} {dd k' : ℕ}
    (h : generate_uniform_distractors opts sdev corr n base f stream = (.ok (strs, dd), k')) :
    ∃ j, j < expansion_actions.length ∧
      dd = base + (cfgAt (listMean opts)
        (initCfg (listMean opts) (if sdev = 0 then 1 else sdev)) j).decInc ∧
      ∃ k₀ vals, strs = vals.map (fmt dd) ∧
        runPass dd n (allow_negative opts) corr stream (n * f) k₀ [] = (vals, k') := by
  unfold generate_uniform_distractors at h
  dsimp only at h
  cases hG : genLoop base n (n * f) (allow_negative opts) corr
      (listMean opts) stream expansion_actions
      (initCfg (listMean opts) (if sdev = 0 then 1 else sdev)) 0 0 with
  | mk res kk =>
    rw [hG] at h
    cases res with
    | error e => simp at h
    | ok p =>
      cases p with
      | mk vals d =>
        simp only at h
        have hstrs : (vals.take n).map (fmt d) = strs :=
          congrArg Prod.fst (Except.ok.inj (congrArg Prod.fst h))
        have hd : d = dd := congrArg Prod.snd (Except.ok.inj (congrArg Prod.fst h))
        have hkk : kk = k' := congrArg Prod.snd h
        subst hd
        subst hkk
        obtain ⟨j, hj, hdd, hlen, k₀, hrp⟩ := genLoop_ok _ _ _ _ hG
        have hle : vals.length ≤ n := by
          have := @runPass_length_le d n (allow_negative opts) corr stream (n * f) k₀ [] (by simp)
          rw [hrp] at this
          exact this
        have htake : vals.take n = vals := List.take_of_length_le (le_antisymm hle hlen ▸ le_rfl)
        rw [htake] at hstrs
        exact ⟨j, hj, hdd, k₀, vals, hstrs.symm, hrp⟩

theorem cfgAt_vals (mean s : ℚ) :
    cfgAt mean (initCfg mean s) 0 = ⟨mean - 3 * s, mean + 3 * s, 0⟩ ∧
    cfgAt mean (initCfg mean s) 1 = ⟨mean - 6 * s, mean + 6 * s, 0⟩ ∧
    cfgAt mean (initCfg mean s) 2 = ⟨mean - 12 * s, mean + 12 * s, 0⟩ ∧
    cfgAt mean (initCfg mean s) 3 = ⟨mean - 12 * s, mean + 12 * s, 1⟩ ∧
    cfgAt mean (initCfg mean s) 4 = ⟨mean - 24 * s, mean + 24 * s, 1⟩ ∧
    cfgAt mean (initCfg mean s) 5 = ⟨mean - 48 * s, mean + 48 * s, 1⟩ ∧
    cfgAt mean (initCfg mean s) 6 = ⟨mean - 48 * s, mean + 48 * s, 2⟩ := by
  refine ⟨?_, ?_, ?_, ?_, ?_, ?_, ?_⟩ <;>
    (simp [cfgAt, expansion_actions, applyAction, initCfg, PassCfg.mk.injEq]) <;>
    constructor <;> ring

theorem gll2 : get_label_length 2 = 1 := by
  rw [get_label_length, glAux.eq_def]
  norm_num

theorem generate_labels_getD {n idx : ℕ} (h : idx < n) :
    (generate_labels n).getD idx [] = index_to_label idx (get_label_length n) := by
  unfold generate_labels
  rw [List.getD_eq_getElem?_getD]
  rw [List.getElem?_map]
  rw [List.getElem?_range h]
  rfl

/-! ## Parse guarantee -/

theorem read_row_correct_mem (r : RawRow) : (read_row r).correct ∈ (read_row r).options := by
  cases r with
  | mk question optA optB optC optD letter =>
    cases letter <;> simp [read_row]

/-! ## Claims -/

/-- C1 counterexample: calling the batch generator with N = 0 produces an
ExpandedQuestion whose `answers` has length 1, not 0 — the `M ≤ 0` branch of
`expand_numeric_answers_for_question` returns the single correct answer. -/
theorem C1_counterexample :
    generate_expanded_quiz_numeric [q0] 0 orc0 0 =
      Except.ok [⟨"q0", ⟨1, 0⟩, [⟨1, 0⟩]⟩] ∧
    (ExpandedQuestion.mk "q0" ⟨1, 0⟩ [⟨1, 0⟩]).answers.length = 1 ∧ (1 : ℕ) ≠ 0 :=
  ⟨run_q0_N0, rfl, by norm_num⟩

/-- C1 (amended): for every parsed-question batch, every caller-requested count N, and
every ExpandedQuestion produced by `generate_expanded_quiz_numeric`, the answers list
has length exactly N when N ≥ 1; when N = 0 it has length 1 (i.e. `max N 1` always). -/
theorem C1_amended {rows : List Question} {N i0 : ℕ} {orc : ℕ → QOracle}
    {eqs : List ExpandedQuestion}
    (hsh : ∀ i l, ((orc i).shuffle l).Perm l)
    (hcm : ∀ q ∈ rows, q.correct ∈ q.options)
    (hok : generate_expanded_quiz_numeric rows N orc i0 = .ok eqs) :
    ∀ e ∈ eqs, e.answers.length = max N 1 := by
  intro e he
  obtain ⟨q, _, hR⟩ := forall₂_mem_right (genQuiz_spec hsh hcm hok) he
  exact hR.2.1

/-- C1 witness: the amended theorem applied to a concrete successful batch run with
N = 3 (one question, options 1,1,3,3, draws 5,6,...). -/
theorem C1_witness :
    (ExpandedQuestion.mk "q1" ⟨1, 0⟩ [⟨1, 0⟩, ⟨5, 0⟩, ⟨6, 0⟩]).answers.length = max 3 1 :=
  C1_amended (fun _ l => List.Perm.refl l)
    (fun q hq => by
      rcases List.mem_singleton.mp hq with rfl
      decide)
    run_q1_ok _ (List.mem_singleton.mpr rfl)

/-- C2: for every ExpandedQuestion produced by the generator, the entries of `answers`
are pairwise distinct as formatted strings (`FStr` values), and the sampler's
deduplicating collection — which stores `float(candidate_str)` — identifies two
candidates exactly when their formatted strings (at the pass precision `d`) are equal:
parsed-value equality coincides with formatted-string equality. -/
theorem C2_theorem {rows : List Question} {N i0 : ℕ} {orc : ℕ → QOracle}
    {eqs : List ExpandedQuestion}
    (hsh : ∀ i l, ((orc i).shuffle l).Perm l)
    (hcm : ∀ q ∈ rows, q.correct ∈ q.options)
    (hok : generate_expanded_quiz_numeric rows N orc i0 = .ok eqs) :
    (∀ e ∈ eqs, e.answers.Nodup) ∧
    (∀ (d : ℕ) (c₁ c₂ : ℚ), (fmt d c₁).val = (fmt d c₂).val ↔ fmt d c₁ = fmt d c₂) := by
  constructor
  · intro e he
    obtain ⟨q, _, hR⟩ := forall₂_mem_right (genQuiz_spec hsh hcm hok) he
    exact hR.2.2.1
  · exact fmt_val_inj

/-- C2 witness: the theorem applied to the concrete N = 3 run. -/
theorem C2_witness :
    ([⟨1, 0⟩, ⟨5, 0⟩, ⟨6, 0⟩] : List FStr).Nodup ∧
    ((fmt 0 (5 : ℚ)).val = (fmt 0 (6 : ℚ)).val ↔ fmt 0 (5 : ℚ) = fmt 0 (6 : ℚ)) := by
  have h := C2_theorem (fun _ l => List.Perm.refl l)
    (fun q hq => by
      rcases List.mem_singleton.mp hq with rfl
      decide)
    run_q1_ok
  exact ⟨h.1 _ (List.mem_singleton.mpr rfl), h.2 0 5 6⟩

/-- C3: for every successfully produced ExpandedQuestion, the correct value formatted
at the final precision occurs in `answers` exactly once (no sampled distractor's
formatted string equals it), and the `correct_answer` field equals that element
verbatim; the shared final precision is the `dp` of every answer. -/
theorem C3_theorem {rows : List Question} {N i0 : ℕ} {orc : ℕ → QOracle}
    {eqs : List ExpandedQuestion}
    (hsh : ∀ i l, ((orc i).shuffle l).Perm l)
    (hcm : ∀ q ∈ rows, q.correct ∈ q.options)
    (hok : generate_expanded_quiz_numeric rows N orc i0 = .ok eqs) :
    List.Forall₂ (fun q e =>
      e.answers.count e.correct_answer = 1 ∧
      e.correct_answer = fmt e.correct_answer.dp q.correct.val ∧
      ∀ a ∈ e.answers, a.dp = e.correct_answer.dp) rows eqs :=
  (genQuiz_spec hsh hcm hok).imp
    (fun _ _ hR => ⟨hR.2.2.2.1, hR.2.2.2.2.2, hR.2.2.2.2.1⟩)

/-- C3 witness: the theorem applied to the concrete N = 3 run. -/
theorem C3_witness :
    ([⟨1, 0⟩, ⟨5, 0⟩, ⟨6, 0⟩] : List FStr).count ⟨1, 0⟩ = 1 ∧
    (⟨1, 0⟩ : FStr) = fmt 0 q1.correct.val := by
  have h := C3_theorem (fun _ l => List.Perm.refl l)
    (fun q hq => by
      rcases List.mem_singleton.mp hq with rfl
      decide)
    run_q1_ok
  have h1 := (List.forall₂_cons.mp h).1
  exact ⟨h1.1, h1.2.1⟩

/-- C4: the expansion schedule runs at most seven passes; pass 0 uses the interval
`[mean - 3*stdev, mean + 3*stdev]` (stdev replaced by 1 when the population stdev is
0) at precision `base_decimals` (decimal increment 0); at passes 1, 2, 4 and 5 the
half-width on each side of the mean doubles (precision unchanged); at passes 3 and 6
the precision increment grows by one, cumulatively (bounds unchanged); and a
successful sampler run returns exactly the candidates of a single pass started from
the empty collection, at that pass's schedule precision. -/
theorem C4_schedule {opts : List ℚ} {sdev mean s : ℚ}
    (hσ : isPstdev opts sdev) (hm : mean = listMean opts)
    (hs : s = if sdev = 0 then 1 else sdev) :
    expansion_actions.length = 7 ∧
    (cfgAt mean (initCfg mean s) 0 = initCfg mean s ∧
      (initCfg mean s).ub - mean = 3 * s ∧
      mean - (initCfg mean s).lb = 3 * s ∧
      (cfgAt mean (initCfg mean s) 0).decInc = 0) ∧
    (∀ p ∈ ([1, 2, 4, 5] : List ℕ),
      (cfgAt mean (initCfg mean s) p).ub - mean =
        2 * ((cfgAt mean (initCfg mean s) (p - 1)).ub - mean) ∧
      mean - (cfgAt mean (initCfg mean s) p).lb =
        2 * (mean - (cfgAt mean (initCfg mean s) (p - 1)).lb) ∧
      (cfgAt mean (initCfg mean s) p).decInc =
        (cfgAt mean (initCfg mean s) (p - 1)).decInc) ∧
    (∀ p ∈ ([3, 6] : List ℕ),
      (cfgAt mean (initCfg mean s) p).decInc =
        (cfgAt mean (initCfg mean s) (p - 1)).decInc + 1 ∧
      (cfgAt mean (initCfg mean s) p).ub = (cfgAt mean (initCfg mean s) (p - 1)).ub ∧
      (cfgAt mean (initCfg mean s) p).lb = (cfgAt mean (initCfg mean s) (p - 1)).lb) ∧
    (∀ (corr : ℚ) (n base f : ℕ) (stream : ℕ → ℚ) (strs : List FStr) (dd k' : ℕ),
      generate_uniform_distractors opts sdev corr n base f stream = (.ok (strs, dd), k') →
      ∃ p, p ≤ 6 ∧ dd = base + (cfgAt mean (initCfg mean s) p).decInc ∧
        ∃ k₀ vals, strs = vals.map (fmt dd) ∧
          runPass dd n (allow_negative opts) corr stream (n * f) k₀ [] = (vals, k')) := by
  obtain ⟨v0, v1, v2, v3, v4, v5, v6⟩ := cfgAt_vals mean s
  refine ⟨rfl, ⟨by rw [v0]; rfl, by simp only [initCfg]; ring, by simp only [initCfg]; ring,
      by rw [v0]⟩, ?_, ?_, ?_⟩
  · intro p hp
    fin_cases hp
    · refine ⟨?_, ?_, ?_⟩ <;>
        simp only [show ((1 : ℕ) - 1 = 0) from rfl, v1, v0] <;> ring
    · refine ⟨?_, ?_, ?_⟩ <;>
        simp only [show ((2 : ℕ) - 1 = 1) from rfl, v2, v1] <;> ring
    · refine ⟨?_, ?_, ?_⟩ <;>
        simp only [show ((4 : ℕ) - 1 = 3) from rfl, v4, v3] <;> ring
    · refine ⟨?_, ?_, ?_⟩ <;>
        simp only [show ((5 : ℕ) - 1 = 4) from rfl, v5, v4] <;> ring
  · intro p hp
    fin_cases hp
    · refine ⟨?_, ?_, ?_⟩ <;>
        simp only [show ((3 : ℕ) - 1 = 2) from rfl, v3, v2]
    · refine ⟨?_, ?_, ?_⟩ <;>
        simp only [show ((6 : ℕ) - 1 = 5) from rfl, v6, v5]
  · intro corr n base f stream strs dd k' h
    obtain ⟨j, hj, hdd, k₀, vals, hstrs, hrp⟩ := gen_ok_struct h
    refine ⟨j, ?_, ?_, k₀, vals, hstrs, hrp⟩
    · simp only [expansion_actions, List.length_cons, List.length_nil] at hj
      omega
    · rw [hm, hs]
      exact hdd

/-- C4 witness: the schedule theorem applied to options `[1,1,3,3]` whose population
standard deviation is exactly 1, checking one doubling step. -/
theorem C4_witness :
    isPstdev [1, 1, 3, 3] 1 ∧
    (cfgAt 2 (initCfg 2 1) 1).ub - 2 = 2 * ((cfgAt 2 (initCfg 2 1) 0).ub - 2) := by
  have h := @C4_schedule [1, 1, 3, 3] 1 2 1 isPstdev_q1 (by norm_num [listMean]) (by norm_num)
  exact ⟨isPstdev_q1, (h.2.2.1 1 (by norm_num)).1⟩

/-- C5 counterexample: at n = 1 the code's label length is 1, but the minimal L with
`26 ^ L ≥ n` is 0 (`26 ^ 0 = 1 ≥ 1`), so the produced label length differs from the
claim's L. -/
theorem C5_counterexample :
    get_label_length 1 = 1 ∧ specMinLabelLen 1 = 0 ∧
    (index_to_label 0 (get_label_length 1)).length ≠ specMinLabelLen 1 := by
  have h1 : get_label_length 1 = 1 := by
    rw [get_label_length, glAux.eq_def]
    norm_num
  have h2 : specMinLabelLen 1 = 0 :=
    Nat.le_zero.mp (@specMinLabelLen_le 1 0 (by norm_num))
  refine ⟨h1, h2, ?_⟩
  rw [h1, h2]
  decide

/-- C5 (amended): for n ≥ 1 let L = `get_label_length n`; L is the minimal length
≥ 1 with `26 ^ L ≥ n` (for n ≥ 2 it is the overall minimal such length, matching the
spec's definition); every index maps to a digit sequence of length exactly L over
digits 0..25 (A-Z), most-significant first; the map is injective on `0..n-1`, and
base-26 decoding recovers each index uniquely. -/
theorem C5_amended {n : ℕ} (hn : 1 ≤ n) :
    (1 ≤ get_label_length n ∧ n ≤ 26 ^ get_label_length n ∧
      ∀ L, 1 ≤ L → n ≤ 26 ^ L → get_label_length n ≤ L) ∧
    (2 ≤ n → get_label_length n = specMinLabelLen n) ∧
    (∀ idx, (index_to_label idx (get_label_length n)).length = get_label_length n ∧
      ∀ dgt ∈ index_to_label idx (get_label_length n), dgt < 26) ∧
    (∀ idx, idx < n → label_to_index (index_to_label idx (get_label_length n)) = idx) ∧
    (∀ i₁, i₁ < n → ∀ i₂, i₂ < n →
      index_to_label i₁ (get_label_length n) = index_to_label i₂ (get_label_length n) →
      i₁ = i₂) := by
  obtain ⟨hge, hpow, hmin⟩ := get_label_length_spec n
  refine ⟨⟨hge, hpow, hmin⟩, fun h2 => get_label_length_eq_specMin h2, ?_, ?_, ?_⟩
  · exact fun idx => ⟨index_to_label_length idx _, index_to_label_digits_lt idx _⟩
  · intro idx hidx
    exact label_roundtrip (lt_of_lt_of_le hidx hpow)
  · intro i₁ h₁ i₂ h₂ heq
    exact index_to_label_inj (lt_of_lt_of_le h₁ hpow) (lt_of_lt_of_le h₂ hpow) heq

/-- C5 witness: the amended theorem at n = 3, decoding the label of index 2. -/
theorem C5_witness :
    1 ≤ 3 ∧ label_to_index (index_to_label 2 (get_label_length 3)) = 2 :=
  ⟨by norm_num, (C5_amended (by norm_num)).2.2.2.1 2 (by norm_num)⟩

/-- C6 counterexample: two sampler runs that exhaust all seven passes — one with
options `[1,1,3,3]` (mean 2, pstdev 1, obtaining 1 distractor per pass) and one with
options `[7,7,7,7]` (mean 7, pstdev 0, obtaining 0) — raise the same `GenerationError`
value `⟨needed, expansions⟩ = ⟨2, 6⟩`, so the error cannot carry the number actually
obtained, the attempt count, or the source mean/stdev as the claim states. -/
theorem C6_counterexample :
    (generate_uniform_distractors [1, 1, 3, 3] 1 1 2 0 1 (fun _ => (5 : ℚ))).1 =
      Except.error ⟨2, 6⟩ ∧
    (generate_uniform_distractors [7, 7, 7, 7] 0 7 2 0 1 (fun _ => (7 : ℚ))).1 =
      Except.error ⟨2, 6⟩ ∧
    (runPass 0 2 false 1 (fun _ => (5 : ℚ)) 2 0 []).1.length = 1 ∧
    (runPass 0 2 false 7 (fun _ => (7 : ℚ)) 2 0 []).1.length = 0 ∧
    listMean [(1 : ℚ), 1, 3, 3] ≠ listMean [(7 : ℚ), 7, 7, 7] ∧
    pvariance [(1 : ℚ), 1, 3, 3] ≠ pvariance [(7 : ℚ), 7, 7, 7] := by
  refine ⟨runA_err, runB_err, ?_, ?_, ?_, ?_⟩
  · norm_num [runPass, epsQ, fmt, FStr.val, rhe_lit5]
  · norm_num [runPass, epsQ, fmt, FStr.val, rhe_lit7]
  · norm_num [listMean]
  · norm_num [pvariance, listMean]

/-- C6 (amended): when the sampler exhausts all seven passes, the raised error carries
exactly the requested count and the number of expansions performed (always 6); the
failure propagates unchanged through `expand_numeric_answers_for_question` (terminal,
not retried). -/
theorem C6_amended :
    (∀ (opts : List ℚ) (sdev corr : ℚ) (n base f : ℕ) (stream : ℕ → ℚ)
        (e : GenError) (k' : ℕ),
      generate_uniform_distractors opts sdev corr n base f stream = (.error e, k') →
      e = ⟨n, 6⟩) ∧
    (∀ (q : Question) (sdev : ℚ) (N : ℕ) (stream : ℕ → ℚ)
        (shuffle : List FStr → List FStr) (e : GenError),
      expand_numeric_answers_for_question q sdev N stream shuffle = .error e →
      e = ⟨N - 1, 6⟩) :=
  ⟨fun _ _ _ _ _ _ _ _ _ h => gen_err_spec h,
   fun _ _ _ _ _ _ h => expand_err_spec h⟩

/-- C6 witness: the amended theorem applied to the concrete exhausted run. -/
theorem C6_witness :
    (generate_uniform_distractors [1, 1, 3, 3] 1 1 2 0 1 (fun _ => (5 : ℚ))).1 =
      Except.error ⟨2, 6⟩ ∧ GenError.mk 2 6 = ⟨2, 6⟩ := by
  have hpair : generate_uniform_distractors [1, 1, 3, 3] 1 1 2 0 1 (fun _ => (5 : ℚ)) =
      (Except.error ⟨2, 6⟩,
        (generate_uniform_distractors [1, 1, 3, 3] 1 1 2 0 1 (fun _ => (5 : ℚ))).2) := by
    rw [← runA_err]
  exact ⟨runA_err, C6_amended.1 [1, 1, 3, 3] 1 1 2 0 1 (fun _ => (5 : ℚ)) ⟨2, 6⟩ _ hpair⟩

/-- C7 counterexample: for source options written `3.10, 2, 5, 1` the maximum
fractional-digit count in the original text is 2, but the code — which inspects the
value after the float round-trip (`Decimal(str(float("3.10"))) = 3.1`) — returns 1. -/
theorem C7_counterexample :
    get_max_decimals_in_original [⟨310, 2⟩, ⟨2, 0⟩, ⟨5, 0⟩, ⟨1, 0⟩] = 1 ∧
    specMaxDecimalsText [⟨310, 2⟩, ⟨2, 0⟩, ⟨5, 0⟩, ⟨1, 0⟩] = 2 ∧
    (1 : ℕ) ≠ 2 :=
  ⟨rfl, rfl, by norm_num⟩

/-- C7 (amended): the Precision Analyzer returns exactly the maximum of the
per-option fractional-digit counts of the shortest decimal representation of each
parsed value — every option's count is at most the result, and the result is
attained by some option whenever it is nonzero (with 0 as the starting value for an
empty or all-integer list, as in the code) — and the analyzer is a function of the
parsed values only: option lists whose values agree pointwise get equal results, so
text with trailing zeros such as "3.10" contributes its round-tripped count, here 1,
not its textual count 2. -/
theorem C7_amended :
    (∀ x y : Dec, x.val = y.val → dpOf x = dpOf y) ∧
    (∀ (opts : List Dec), ∀ x ∈ opts, dpOf x ≤ get_max_decimals_in_original opts) ∧
    (∀ opts : List Dec, get_max_decimals_in_original opts = 0 ∨
      ∃ x ∈ opts, dpOf x = get_max_decimals_in_original opts) ∧
    (∀ opts opts' : List Dec, List.Forall₂ (fun x y => x.val = y.val) opts opts' →
      get_max_decimals_in_original opts = get_max_decimals_in_original opts') ∧
    (∀ x : Dec, x.val = ((normalizeDec x).man : ℚ) / 10 ^ dpOf x) ∧
    dpOf ⟨310, 2⟩ = 1 ∧ (Dec.mk 310 2).exp = 2 := by
  refine ⟨?_, ?_, get_max_attained, fun opts opts' h => get_max_val_congr h,
    val_grid_dpOf, rfl, rfl⟩
  · intro x y h
    unfold dpOf
    rw [normalizeDec_eq_of_val h]
  · intro opts x hx
    exact dpOf_le_get_max hx

/-- C7 witness: the value-dependence parts applied to the numerals `3.10` and `3.1`,
which denote the same value, per option and for whole option lists. -/
theorem C7_witness :
    Dec.val ⟨310, 2⟩ = Dec.val ⟨31, 1⟩ ∧ dpOf ⟨310, 2⟩ = dpOf ⟨31, 1⟩ ∧
    get_max_decimals_in_original [⟨310, 2⟩, ⟨2, 0⟩] =
      get_max_decimals_in_original [⟨31, 1⟩, ⟨2, 0⟩] :=
  ⟨by norm_num [Dec.val], C7_amended.1 ⟨310, 2⟩ ⟨31, 1⟩ (by norm_num [Dec.val]),
   C7_amended.2.2.2.1 [⟨310, 2⟩, ⟨2, 0⟩] [⟨31, 1⟩, ⟨2, 0⟩]
     (List.Forall₂.cons (by norm_num [Dec.val])
       (List.Forall₂.cons (by norm_num [Dec.val]) List.Forall₂.nil))⟩

/-- C8: for every input with `how_many ≥ 1` and `attempts_factor ≥ 1`, the sampler
terminates after at most `7 × how_many × attempts_factor` draws: each pass stops at
`how_many × attempts_factor` attempts and there are at most seven passes.  (The
returned second component counts the `random.uniform` draws consumed.) -/
theorem C8_bound {opts : List ℚ} {sdev corr : ℚ} {n base f : ℕ} {stream : ℕ → ℚ}
    (h1 : 1 ≤ n) (h2 : 1 ≤ f) :
    (generate_uniform_distractors opts sdev corr n base f stream).2 ≤ 7 * n * f := by
  have h := @gen_draws_le opts sdev corr n base f stream
  calc (generate_uniform_distractors opts sdev corr n base f stream).2
      ≤ 7 * (n * f) := h
    _ = 7 * n * f := by ring

/-- C8 witness: the bound at a concrete run with `how_many = attempts_factor = 1`,
which consumes one draw. -/
theorem C8_witness :
    (1 : ℕ) ≤ 1 ∧
    (generate_uniform_distractors [1, 1, 3, 3] 1 1 1 0 1 (fun _ => (5 : ℚ))).2 ≤ 7 * 1 * 1 :=
  ⟨le_rfl, C8_bound le_rfl le_rfl⟩

/-- C9: negative candidates are permitted exactly when at least one source option is
negative (`allow_negative`); when all source options are non-negative, every
distractor returned by a successful `generate_uniform_distractors` run denotes a
non-negative value. -/
theorem C9_nonneg :
    (∀ opts : List ℚ, (allow_negative opts = true ↔ ∃ o ∈ opts, o < 0)) ∧
    ∀ (opts : List ℚ) (sdev corr : ℚ) (n base f : ℕ) (stream : ℕ → ℚ)
      (strs : List FStr) (dd k' : ℕ),
      (∀ o ∈ opts, 0 ≤ o) →
      generate_uniform_distractors opts sdev corr n base f stream = (.ok (strs, dd), k') →
      ∀ x ∈ strs, 0 ≤ x.val := by
  constructor
  · intro opts
    simp [allow_negative, List.any_eq_true, decide_eq_true_eq]
  · intro opts sdev corr n base f stream strs dd k' hpos h x hx
    exact ((gen_ok_spec h).2.2.2 x hx).2.2 hpos

/-- C9 witness: the theorem applied to a concrete run over non-negative options,
whose single distractor `5` is non-negative. -/
theorem C9_witness :
    (∀ o ∈ ([1, 1, 3, 3] : List ℚ), 0 ≤ o) ∧ (0 : ℚ) ≤ (FStr.mk 5 0).val :=
  ⟨by norm_num, (C9_nonneg.2 [1, 1, 3, 3] 1 1 1 0 1 (fun _ => (5 : ℚ)) [⟨5, 0⟩] 0 1
      (by norm_num) runC_ok) ⟨5, 0⟩ (List.mem_singleton.mpr rfl)⟩

/-- C10 counterexample: serializing an ExpandedQuestion whose correct-answer string
does not occur in `answers` produces an ordinary output row with an empty
correct-answer cell (`none`, rendered `""`), not an error. -/
theorem C10_counterexample :
    write_expanded_numeric_questions_to_csv [⟨"q", ⟨9, 0⟩, [⟨1, 0⟩, ⟨2, 0⟩]⟩] =
      [⟨"q", [([0], ⟨1, 0⟩), ([1], ⟨2, 0⟩)], none⟩] ∧
    (write_expanded_numeric_questions_to_csv
        [⟨"q", ⟨9, 0⟩, [⟨1, 0⟩, ⟨2, 0⟩]⟩]).length = 1 := by
  have h : get_label_length 2 = 1 := gll2
  constructor
  · simp [write_expanded_numeric_questions_to_csv, generate_labels, h, write_row,
      index_to_label, itlAux]
    decide
  · simp [write_expanded_numeric_questions_to_csv]

/-- C10 (amended): the serializer writes one row per ExpandedQuestion; the
correct-answer cell holds the label at the position of the first exact string match
of the correct answer in the shuffled answers when present, and is left empty
(`none`) when the correct string is absent — the row is still written, no error is
raised; the label at position `idx` is `index_to_label idx` at the computed length. -/
theorem C10_amended (eqs : List ExpandedQuestion) :
    (write_expanded_numeric_questions_to_csv eqs =
      eqs.map (write_row (generate_labels
        (eqs.foldl (fun a e => max a e.answers.length) 0)))) ∧
    (∀ (labels : List Label) (e : ExpandedQuestion),
      (e.correct_answer ∈ e.answers →
        (write_row labels e).correct_cell =
          some (labels.getD (e.answers.indexOf e.correct_answer) [])) ∧
      (e.correct_answer ∉ e.answers → (write_row labels e).correct_cell = none) ∧
      (write_row labels e).question = e.question ∧
      (write_row labels e).answer_cells = labels.zip e.answers) ∧
    (∀ n idx : ℕ, idx < n →
      (generate_labels n).getD idx [] = index_to_label idx (get_label_length n)) := by
  refine ⟨rfl, ?_, fun n idx h => generate_labels_getD h⟩
  intro labels e
  refine ⟨fun h => ?_, fun h => ?_, rfl, rfl⟩
  · simp [write_row, h]
  · simp [write_row, h]

/-- C10 witness: the amended theorem applied to a row whose correct answer occurs at
position 1 of the shuffled answers: the cell holds the label of index 1. -/
theorem C10_witness :
    (write_row (generate_labels 2)
      ⟨"q", ⟨1, 0⟩, [⟨2, 0⟩, ⟨1, 0⟩]⟩).correct_cell =
      some (index_to_label 1 (get_label_length 2)) := by
  have h1 := ((C10_amended []).2.1 (generate_labels 2)
    ⟨"q", ⟨1, 0⟩, [⟨2, 0⟩, ⟨1, 0⟩]⟩).1 (by decide)
  have h2 := (C10_amended []).2.2 2 1 (by norm_num)
  rw [h1]
  dsimp only
  rw [show List.indexOf (FStr.mk 1 0) [⟨2, 0⟩, ⟨1, 0⟩] = 1 by decide]
  rw [h2]

end QGen
